import Mathlib

/-!
Shallow embedding of the multi-stage approval workflow engine of the
expense-management server (source: `src/unnamed/part_008`).

The embedded pieces are:
* `evaluateRulesOutcome`   — the pure Outcome Evaluator;
* `buildApprovalWorkflow`  — the Workflow Builder merging rules into stages;
* `resolveApproverIds`     — the Approver Resolver (the `users` table is an
  explicit list, the SQL join becomes a filter);
* `maybeActivateNextApprovalStage` — the Stage Activator (database reads and
  inserts become explicit list passing; the records created by
  `createApprovalsForStage` are appended to the ledger);
* the initial activation loop of `POST /api/expenses`;
* the `POST /api/approvals/:id/decision` handler (the transaction becomes an
  `Except`: an error result models a rollback, so no state is returned).

Identifier strings are modelled as already trimmed (ids produced by
`crypto.randomUUID()` / normalised at the persistence boundary), and
`specific_approver_required` is an `Option String` whose `some` case is a
non-empty id, matching `fetchCompanyApprovalRules`, which maps `''` and
`NULL` to `null`.  `min_approval_percentage` is a natural number (the
schema's INT column, validated into [0,100]), and the quorum
`Math.ceil((rule.min_approval_percentage / 100) * uniqueIds.length)` is
embedded bit-exactly as IEEE-754 binary64 arithmetic (`jsCeilQuorum`):
the division and the multiplication are each rounded to nearest, ties to
even, over exact rational intermediates — for some inputs this differs
from the exact ceiling `⌈min·n/100⌉` (e.g. `min = 28, n = 25` gives 8,
the exact ceiling 7).
-/

/-- Approval-record / expense status (`ENUM('pending','approved','rejected','escalated')`). -/
inductive Status where
  | pending
  | approved
  | rejected
  | escalated
deriving DecidableEq, Repr

/-- `rule_type ∈ {percentage, specific, hybrid}` (validated by `normalizeRulePayload`). -/
inductive RuleType where
  | percentage
  | specific
  | hybrid
deriving DecidableEq, Repr

/-- One entry of a rule's `approver_sequence` (output of `parseApproverSequence`). -/
structure SeqStep where
  approver_id : String
  order : Nat
deriving DecidableEq, Repr

/-- An approval rule as returned by `fetchCompanyApprovalRules`. -/
structure Rule where
  rule_type : RuleType
  approvers : List String
  approver_sequence : List SeqStep
  min_approval_percentage : Nat
  specific_approver_required : Option String
deriving DecidableEq, Repr

/-- A row of the `users` table (the fields the engine reads). -/
structure User where
  id : String
  company_id : String
  role : String
deriving DecidableEq, Repr

/-- A row of the `expenses` table (the fields the engine reads). -/
structure Expense where
  id : String
  company_id : String
  user_id : String
  status : Status
deriving DecidableEq, Repr

/-- A row of the `approvals` table (the Approval Ledger). -/
structure ApprovalRecord where
  id : String
  expense_id : String
  approver_id : String
  sequence_order : Nat
  status : Status
deriving DecidableEq, Repr

/-- A computed workflow stage (`{ order, approverIds }`). -/
structure Stage where
  order : Nat
  approverIds : List String
deriving DecidableEq, Repr

/-- Boolean test `record.status === 'rejected'`. -/
def statusRejectedB : Status → Bool
  | .rejected => true
  | _ => false

/-- Boolean test `record.status === 'approved'`. -/
def statusApprovedB : Status → Bool
  | .approved => true
  | _ => false

/-- Boolean test `record.status === 'pending'`. -/
def statusPendingB : Status → Bool
  | .pending => true
  | _ => false

/-- Helper for `dedupKeepFirst`: `seen` is the set of ids already emitted. -/
def dedupSeen (seen : List String) : List String → List String
  | [] => []
  | x :: xs => if x ∈ seen then dedupSeen seen xs else x :: dedupSeen (x :: seen) xs

/-- JS `Array.from(new Set(l))`: deduplicate keeping the first occurrence. -/
def dedupKeepFirst (l : List String) : List String :=
  dedupSeen [] l

/-- The JS `Map` built by `approvalsByApprover.set(record.approver_id, record)`:
`get id` returns the last record in list order with that `approver_id`. -/
def mapGet (records : List ApprovalRecord) (sid : String) : Option ApprovalRecord :=
  match records with
  | [] => none
  | r :: rest =>
    match mapGet rest sid with
    | some x => some x
    | none => if r.approver_id = sid then some r else none

/-- Round `A/B` (`B ≥ 1`) to the nearest integer, ties going to the even
integer — the final step of IEEE-754 round-to-nearest-even. -/
def roundNearestEven (A B : Nat) : Nat :=
  if 2 * (A % B) < B then A / B
  else if B < 2 * (A % B) then A / B + 1
  else if A / B % 2 = 0 then A / B else A / B + 1

/-- Floor of log₂ by fuel-driven structural recursion, so that it reduces
inside the kernel (`Nat.log2` itself is defined by well-founded recursion
and does not). -/
def log2Fuel : Nat → Nat → Nat
  | 0, _ => 0
  | fuel + 1, n => if 2 ≤ n then log2Fuel fuel (n / 2) + 1 else 0

/-- `⌊log₂ n⌋` for `n ≥ 1` (0 at 0); `log2Fuel`'s fuel `n` dominates the
`⌊log₂ n⌋` halving steps. -/
def natLog2 (n : Nat) : Nat :=
  log2Fuel n n

/-- Decide `2^f ≤ a/b` for a positive rational `a/b` and `f : ℤ`. -/
def qTwoPowLe (a b : Nat) (f : Int) : Bool :=
  if 0 ≤ f then decide (b * 2 ^ f.toNat ≤ a) else decide (b ≤ a * 2 ^ (-f).toNat)

/-- The binade exponent of `a/b` (`a, b ≥ 1`): the unique `f : ℤ` with
`2^f ≤ a/b < 2^(f+1)`.  Since `2^(la-lb-1) < a/b < 2^(la-lb+1)` for
`la = ⌊log₂ a⌋, lb = ⌊log₂ b⌋`, the floor lies in `{la-lb-1, la-lb}` and a
cascade of two tests finds it (the `+1` test is always false and kept only
as a guard). -/
def qFloorLog2 (a b : Nat) : Int :=
  if qTwoPowLe a b ((natLog2 a : Int) - (natLog2 b : Int) + 1) then
    (natLog2 a : Int) - (natLog2 b : Int) + 1
  else if qTwoPowLe a b ((natLog2 a : Int) - (natLog2 b : Int)) then
    (natLog2 a : Int) - (natLog2 b : Int)
  else (natLog2 a : Int) - (natLog2 b : Int) - 1

/-- Round the positive rational `a/b` to the nearest IEEE-754 binary64
value (round to nearest, ties to even, 53-bit significand), returned as a
significand/exponent pair `(m, e)` of value `m·2^e`: the value is scaled
into `[2^52, 2^53)` and the scaled rational rounded to the nearest
integer.  Exponent range and subnormals are ignored — exact for the
magnitudes that occur here (`min/100 ∈ [2^-7, 1]`, products below
`2^85`). -/
def floatRound (a b : Nat) : Nat × Int :=
  if 0 ≤ 52 - qFloorLog2 a b then
    (roundNearestEven (a * 2 ^ (52 - qFloorLog2 a b).toNat) b, qFloorLog2 a b - 52)
  else
    (roundNearestEven a (b * 2 ^ (qFloorLog2 a b - 52).toNat), qFloorLog2 a b - 52)

/-- `Math.ceil(m·2^E)` for a natural significand `m`. -/
def ceilPow2 (m : Nat) (E : Int) : Nat :=
  if 0 ≤ E then m * 2 ^ E.toNat
  else (m + 2 ^ (-E).toNat - 1) / 2 ^ (-E).toNat

/-- `Math.ceil((min / 100) * n)` computed in IEEE-754 binary64 arithmetic,
as the source does: `min` (an integer percentage) and `n` (an array
length, `< 2^32`) are exact doubles; the division `min/100` is correctly
rounded to `m₁·2^e₁`, the product `(m₁·2^e₁)·n` is correctly rounded —
and since scaling by `2^e₁` is exact, that equals `fl(m₁·n)·2^e₁` — and
`Math.ceil` is taken on the result.  This can exceed the exact
`⌈min·n/100⌉` by one (e.g. `min = 28, n = 25` yields 8, not 7). -/
def jsCeilQuorum (min n : Nat) : Nat :=
  if min = 0 ∨ n = 0 then 0
  else
    ceilPow2 (floatRound ((floatRound min 100).1 * n) 1).1
      ((floatRound min 100).2 + (floatRound ((floatRound min 100).1 * n) 1).2)

/-- Result of the inner `evaluatePercentage` helper
(`{ satisfied }` / `{ rejected: true }`). -/
structure PctResult where
  satisfied : Bool
  wasRejected : Bool
deriving DecidableEq, Repr

/-- `evaluatePercentage` from `evaluateRulesOutcome`: quorum check of a
percentage/hybrid rule over the ledger.  The loop that early-returns on a
rejected candidate and otherwise counts approved candidates is embedded as
an `any` test plus a `countP`. -/
def evaluatePercentage (records : List ApprovalRecord) (rule : Rule) : PctResult :=
  let allApproverIds := dedupKeepFirst (records.map (fun r => r.approver_id))
  let candidateIds := if rule.approvers.isEmpty then allApproverIds else rule.approvers
  let uniqueIds := dedupKeepFirst candidateIds
  if uniqueIds.isEmpty then ⟨false, false⟩
  else if uniqueIds.any (fun i =>
      match mapGet records i with
      | some r => statusRejectedB r.status
      | none => false) then ⟨false, true⟩
  else
    let approvedCount := uniqueIds.countP (fun i =>
      match mapGet records i with
      | some r => statusApprovedB r.status
      | none => false)
    let required := jsCeilQuorum rule.min_approval_percentage uniqueIds.length
    ⟨if required = 0 then decide (0 < approvedCount) else decide (required ≤ approvedCount), false⟩

/-- The specific/hybrid step of the per-rule loop of `evaluateRulesOutcome`:
the early `return` taken when the designated approver's (last) record is
approved or rejected. -/
def specificVerdict (records : List ApprovalRecord) (rule : Rule) : Option Status :=
  match rule.rule_type with
  | .percentage => none
  | _ =>
    match rule.specific_approver_required with
    | none => none
    | some sid =>
      match mapGet records sid with
      | none => none
      | some r =>
        if statusApprovedB r.status then some .approved
        else if statusRejectedB r.status then some .rejected
        else none

/-- The body of the per-rule loop of `evaluateRulesOutcome`: the verdict a
single rule produces (`some` = early `return`, `none` = fall through). -/
def ruleVerdict (records : List ApprovalRecord) (rule : Rule) : Option Status :=
  match specificVerdict records rule with
  | some s => some s
  | none =>
    match rule.rule_type with
    | .specific => none
    | _ =>
      if (evaluatePercentage records rule).wasRejected then some .rejected
      else if (evaluatePercentage records rule).satisfied then some .approved
      else none

/-- The rule loop of `evaluateRulesOutcome`: first rule to produce a verdict wins. -/
def evalRulesLoop (records : List ApprovalRecord) : List Rule → Option Status
  | [] => none
  | ru :: rest =>
    match ruleVerdict records ru with
    | some s => some s
    | none => evalRulesLoop records rest

/-- `evaluateRulesOutcome(rules, approvalRecords)`: the pure Outcome Evaluator. -/
def evaluateRulesOutcome (rules : List Rule) (records : List ApprovalRecord) : Status :=
  if records.isEmpty then .pending
  else if rules.isEmpty then
    if records.any (fun r => statusRejectedB r.status) then .rejected
    else if records.all (fun r => statusApprovedB r.status) then .approved
    else .pending
  else if records.any (fun r => statusRejectedB r.status) then .rejected
  else
    match evalRulesLoop records rules with
    | some s => s
    | none =>
      if records.all (fun r => statusApprovedB r.status) then .approved
      else .pending

/-- The mutable `stageMap` of `buildApprovalWorkflow`: an association list
`order ↦ approver ids`, in key insertion order (JS `Map` iteration order),
each id list in insertion order without duplicates (JS `Set`). -/
abbrev StageMap : Type := List (Nat × List String)

/-- Look up the id set of a stage order in the stage map. -/
def stageLookup (m : StageMap) (order : Nat) : Option (List String) :=
  match m with
  | [] => none
  | p :: rest => if p.1 = order then some p.2 else stageLookup rest order

/-- The number of distinct keys in the stage map (`stageMap.size`). -/
def stageMapSize (m : StageMap) : Nat :=
  List.length m

/-- `Math.max(...stageMap.keys())`, with the JS code's explicit `0` when empty. -/
def stageMapMaxKey (m : StageMap) : Nat :=
  (List.map (fun p : Nat × List String => p.1) m).foldr Nat.max 0

/-- `addToStage(order, approverId)` from `buildApprovalWorkflow`: skip empty
ids, clamp a non-positive order to `stageMap.size + 1`, and add the id to the
stage's set. -/
def addToStage (m : StageMap) (order : Nat) (id : String) : StageMap :=
  if id = "" then m
  else
    let so := if 0 < order then order else stageMapSize m + 1
    match stageLookup m so with
    | some _ =>
      List.map (fun p : Nat × List String =>
        if p.1 = so then (p.1, if id ∈ p.2 then p.2 else p.2 ++ [id]) else p) m
    | none => m ++ [(so, [id])]

/-- The per-rule additions of `buildApprovalWorkflow` before the specific
approver handling: `approver_sequence` if present, else `approvers` numbered
1-based by array index. -/
def addRuleBase (m : StageMap) (rule : Rule) : StageMap :=
  if rule.approver_sequence.isEmpty then
    (List.enumFrom 1 rule.approvers).foldl (fun acc p => addToStage acc p.1 p.2) m
  else
    rule.approver_sequence.foldl (fun acc step => addToStage acc step.order step.approver_id) m

/-- `alreadyIncluded` for the specific approver: present in the rule's raw
`approver_sequence` or its raw `approvers` array. -/
def alreadyIncludedB (rule : Rule) (sid : String) : Bool :=
  rule.approver_sequence.any (fun step => step.approver_id = sid)
    || decide (sid ∈ rule.approvers)

/-- One iteration of the rule loop of `buildApprovalWorkflow`: the base
additions, then — if the rule names a `specific_approver_required` that is not
already included — that id at one past the maximum order of the whole stage
map accumulated so far. -/
def addRule (m : StageMap) (rule : Rule) : StageMap :=
  let m2 := addRuleBase m rule
  match rule.specific_approver_required with
  | none => m2
  | some sid =>
    if alreadyIncludedB rule sid then m2
    else addToStage m2 (stageMapMaxKey m2 + 1) sid

/-- The stateful `filter` over a stage's approvers with the global `seenGlobal`
set: returns the kept ids and the extended seen set. -/
def filterSeen (seen : List String) : List String → List String × List String
  | [] => ([], seen)
  | x :: xs =>
    if x ∈ seen then filterSeen seen xs
    else
      let p := filterSeen (x :: seen) xs
      (x :: p.1, p.2)

/-- The final pass of `buildApprovalWorkflow`: walk the sorted orders, keep
each approver only at its first stage, drop empty stages and renumber. -/
def buildSteps (m : StageMap) (seen : List String) (nextOrder : Nat) : List Nat → List Stage
  | [] => []
  | o :: os =>
    if (filterSeen seen ((stageLookup m o).getD [])).1.isEmpty then
      buildSteps m (filterSeen seen ((stageLookup m o).getD [])).2 nextOrder os
    else
      ⟨nextOrder, (filterSeen seen ((stageLookup m o).getD [])).1⟩ ::
        buildSteps m (filterSeen seen ((stageLookup m o).getD [])).2 (nextOrder + 1) os

/-- `buildApprovalWorkflow(rules)`: merge all rules into the stage map, sort
the orders ascending, then dedup / renumber into the final stage list. -/
def buildApprovalWorkflow (rules : List Rule) : List Stage :=
  buildSteps (rules.foldl addRule []) [] 1
    (List.insertionSort (fun a b => a ≤ b)
      (List.map (fun p : Nat × List String => p.1) (rules.foldl addRule [])))

/-- `resolveApproverIds(connection, companyId, candidateIds, excludeUserId)`:
dedup the candidates, drop empty ids and the submitter, join against the
`users` table (rows in table order), and drop the submitter again. -/
def resolveApproverIds (users : List User) (companyId : String)
    (candidateIds : List String) (excludeUserId : String) : List String :=
  let uniqueCandidates :=
    dedupKeepFirst (candidateIds.filter (fun i => i ≠ "" && i ≠ excludeUserId))
  if uniqueCandidates.isEmpty then []
  else
    let rows := (users.filter (fun u =>
      u.company_id = companyId && decide (u.id ∈ uniqueCandidates))).map (fun u => u.id)
    rows.filter (fun i => i ≠ excludeUserId)

/-- The stage-order normalisation applied to `approval.sequence_order`
(`Number.isFinite(x) && x > 0 ? Math.floor(x) : 1`, on a natural number). -/
def normStageOrder (n : Nat) : Nat :=
  if 0 < n then n else 1

/-- `approvalsByStage.get(order) || []`: the records grouped under a
normalised stage order. -/
def approvalsAtStage (approvals : List ApprovalRecord) (order : Nat) : List ApprovalRecord :=
  approvals.filter (fun a => normStageOrder a.sequence_order = order)

/-- `createdStages.has(order)`: some record exists at this normalised order. -/
def stageCreatedB (approvals : List ApprovalRecord) (order : Nat) : Bool :=
  approvals.any (fun a => normStageOrder a.sequence_order = order)

/-- The `previousComplete` test for one earlier stage: it has at least one
record and every record is approved. -/
def stageCompleteB (approvals : List ApprovalRecord) (st : Stage) : Bool :=
  let prevApprovals := approvalsAtStage approvals st.order
  !prevApprovals.isEmpty && prevApprovals.all (fun r => statusApprovedB r.status)

/-- The candidate ids that survive both resolution and the same-stage
exclusion filter when opening `st` (`resolvedApprovers` then `filtered`). -/
def stageFiltered (users : List User) (expense : Expense)
    (approvals : List ApprovalRecord) (st : Stage) : List String :=
  let resolved := resolveApproverIds users expense.company_id st.approverIds expense.user_id
  resolved.filter (fun a =>
    !(approvals.any (fun r => r.approver_id = a && r.sequence_order = st.order)))

/-- The stage scan loop of `maybeActivateNextApprovalStage`.  `full` is the
whole `sortedWorkflow` (used for the `previousStages` filter), `rem` the
stages still to visit.  Returns `some (order, ids)` when a stage is opened
(the early `return` after `createApprovalsForStage`), `none` when the loop
breaks or runs out. -/
def activateScan (users : List User) (expense : Expense)
    (approvals : List ApprovalRecord) (full : List Stage) :
    List Stage → Option (Nat × List String)
  | [] => none
  | st :: rest =>
    if stageCreatedB approvals st.order then
      if (approvalsAtStage approvals st.order).any (fun r => statusPendingB r.status) then none
      else activateScan users expense approvals full rest
    else
      if (full.filter (fun c => c.order < st.order)).all
          (fun p => stageCompleteB approvals p) then
        if (stageFiltered users expense approvals st).isEmpty then
          activateScan users expense approvals full rest
        else some (st.order, stageFiltered users expense approvals st)
      else none

/-- The rows inserted by `createApprovalsForStage` (fresh UUIDs are modelled
as the empty string: no later read depends on them). -/
def mkStageRecords (expenseId : String) (approverIds : List String)
    (stageOrder : Nat) : List ApprovalRecord :=
  approverIds.map (fun a => ⟨"", expenseId, a, stageOrder, .pending⟩)

/-- `maybeActivateNextApprovalStage(connection, { expense, rules, approvals })`:
returns the (possibly extended) ledger.  The re-`SELECT` after an insert
yields the old rows followed by the inserted rows. -/
def maybeActivateNextApprovalStage (users : List User) (expense : Expense)
    (rules : List Rule) (approvals : List ApprovalRecord) : List ApprovalRecord :=
  if approvals.isEmpty then approvals
  else if approvals.any (fun r => statusRejectedB r.status) then approvals
  else if (buildApprovalWorkflow rules).isEmpty then approvals
  else
    match activateScan users expense approvals
        (List.insertionSort (fun a b => a.order ≤ b.order) (buildApprovalWorkflow rules))
        (List.insertionSort (fun a b => a.order ≤ b.order) (buildApprovalWorkflow rules)) with
    | some p => approvals ++ mkStageRecords expense.id p.2 p.1
    | none => approvals

/-- The stage-selection loop of `POST /api/expenses`: the first workflow stage
whose resolved approver set is non-empty. -/
def findActiveStage (users : List User) (companyId submitterId : String) :
    List Stage → Option (Stage × List String)
  | [] => none
  | st :: rest =>
    if (resolveApproverIds users companyId st.approverIds submitterId).isEmpty then
      findActiveStage users companyId submitterId rest
    else some (st, resolveApproverIds users companyId st.approverIds submitterId)

/-- The managers/admins fallback of `POST /api/expenses`: every company user
with role manager or admin, minus the submitter. -/
def fallbackManagerIds (users : List User) (companyId submitterId : String) : List String :=
  ((users.filter (fun u =>
      u.company_id = companyId && (u.role = "manager" || u.role = "admin"))).map
    (fun u => u.id)).filter (fun i => i ≠ submitterId)

/-- The initial activation of `POST /api/expenses` over an already built
workflow: the stage order and deduplicated approver ids for which pending
records are created, or `none` when no record is created. -/
def submitActivation (users : List User) (companyId submitterId : String)
    (workflow : List Stage) : Option (Nat × List String) :=
  match findActiveStage users companyId submitterId workflow with
  | some p =>
    if (dedupKeepFirst p.2).isEmpty then none
    else some (p.1.order, dedupKeepFirst p.2)
  | none =>
    if (fallbackManagerIds users companyId submitterId).isEmpty then none
    else if (dedupKeepFirst (fallbackManagerIds users companyId submitterId)).isEmpty then none
    else some (1, dedupKeepFirst (fallbackManagerIds users companyId submitterId))

/-- The full initial activation of `POST /api/expenses`: fetch the company's
rules, build the workflow, then select and open the first active stage. -/
def expenseSubmissionActivation (users : List User) (companyId submitterId : String)
    (rules : List Rule) : Option (Nat × List String) :=
  submitActivation users companyId submitterId (buildApprovalWorkflow rules)

/-- The error responses of `POST /api/approvals/:id/decision`.  An error
models `rollback()` followed by the error response: nothing is persisted. -/
inductive DecisionError where
  | invalidStatus
  | approvalNotFound
  | expenseNotFound
deriving DecidableEq, Repr

/-- `POST /api/approvals/:id/decision` within its transaction: look up the
record by `(id, approver_id)`, look up the expense, overwrite the record's
status, re-read the ledger, run the Stage Activator, run the Outcome
Evaluator, and persist its result as the expense status.  `reqCompanyId` is
`req.user.company_id` (used for the rule fetch and the activation), and
`rules` stands for `fetchCompanyApprovalRules(connection, req.user.company_id)`.
Returns the new expense row and ledger. -/
def decisionHandler (users : List User) (rules : List Rule) (expense : Expense)
    (approvals : List ApprovalRecord) (reqUserId reqCompanyId : String)
    (approvalId : String) (decision : Status) :
    Except DecisionError (Expense × List ApprovalRecord) :=
  if !(statusApprovedB decision || statusRejectedB decision) then .error .invalidStatus
  else
    match approvals.find? (fun a => a.id = approvalId && a.approver_id = reqUserId) with
    | none => .error .approvalNotFound
    | some approval =>
      if expense.id ≠ approval.expense_id then .error .expenseNotFound
      else
        let updated := approvals.map (fun a =>
          if a.id = approvalId then { a with status := decision } else a)
        let allApprovals := updated.filter (fun a => a.expense_id = approval.expense_id)
        let activationExpense : Expense :=
          ⟨expense.id, reqCompanyId, expense.user_id, expense.status⟩
        let allApprovals2 :=
          maybeActivateNextApprovalStage users activationExpense rules allApprovals
        let expenseStatus := evaluateRulesOutcome rules allApprovals2
        .ok ({ expense with status := expenseStatus }, allApprovals2)

/-- Whether the handler committed (an `.ok` response) rather than rolled back. -/
def exceptIsOk {ε α : Type} : Except ε α → Bool
  | .ok _ => true
  | .error _ => false

/-- Rewrite an escalated record to a pending one, leaving all other fields
and all other statuses alone (used to state that the Outcome Evaluator treats
`escalated` exactly like `pending`). -/
def escToPending (r : ApprovalRecord) : ApprovalRecord :=
  if r.status = .escalated then { r with status := .pending } else r

/-- Spec-side reading of C5, specific clause: the designated approver has an
approved record in the ledger. -/
def hasApprovedRecordB (records : List ApprovalRecord) (sid : String) : Bool :=
  records.any (fun r => r.approver_id = sid && statusApprovedB r.status)

/-- Spec-side reading of C5, candidate set of a percentage/hybrid rule:
`rule.approvers` if non-empty, else the distinct approver ids of the records. -/
def specCandidates (rule : Rule) (records : List ApprovalRecord) : List String :=
  dedupKeepFirst
    (if rule.approvers.isEmpty then records.map (fun r => r.approver_id) else rule.approvers)

/-- The claim C5's stated percentage clause, with the **exact** ceiling
`required = ⌈min_approval_percentage · |candidates| / 100⌉`: the quorum is
met when `required = 0` with at least one approval, else when the approved
count reaches `required`.  This is the claim's formula, kept for the
counterexample: the code computes the ceiling in binary64 instead. -/
def specPctOkExactB (rule : Rule) (records : List ApprovalRecord) : Bool :=
  let c := specCandidates rule records
  let approvedCount := c.countP (fun sid => hasApprovedRecordB records sid)
  let required := (rule.min_approval_percentage * c.length + 99) / 100
  if required = 0 then decide (0 < approvedCount) else decide (required ≤ approvedCount)

/-- The claim C5's stated per-rule condition under the exact ceiling
(`specPctOkExactB`): the reading the claim asserts, refuted by the
counterexample. -/
def specRuleApprovesExactB (rule : Rule) (records : List ApprovalRecord) : Bool :=
  let specificOk :=
    match rule.specific_approver_required with
    | some sid => hasApprovedRecordB records sid
    | none => false
  match rule.rule_type with
  | .specific => specificOk
  | .percentage => specPctOkExactB rule records
  | .hybrid => specificOk || specPctOkExactB rule records

/-- Amended reading of C5, percentage clause: as the claim states it, except
that `required` is `Math.ceil((min/100) · |candidates|)` in binary64
arithmetic (`jsCeilQuorum`), which the source computes. -/
def specPctOkB (rule : Rule) (records : List ApprovalRecord) : Bool :=
  let c := specCandidates rule records
  let approvedCount := c.countP (fun sid => hasApprovedRecordB records sid)
  let required := jsCeilQuorum rule.min_approval_percentage c.length
  if required = 0 then decide (0 < approvedCount) else decide (required ≤ approvedCount)

/-- Amended reading of C5: the condition under which a rule yields an
`approved` verdict (in the absence of any rejected record), with the
percentage quorum computed as the source computes it (`specPctOkB`). -/
def specRuleApprovesB (rule : Rule) (records : List ApprovalRecord) : Bool :=
  let specificOk :=
    match rule.specific_approver_required with
    | some sid => hasApprovedRecordB records sid
    | none => false
  match rule.rule_type with
  | .specific => specificOk
  | .percentage => specPctOkB rule records
  | .hybrid => specificOk || specPctOkB rule records

/-- C1 counterexample.  A hybrid rule with `specific_approver_required = x`
and approvers `[x, b]` produced the ledger `x@1 approved, b@2 pending` and
the expense was persisted `approved` (the specific short-circuit fired while
b's record was still pending).  A subsequent rejection by `b` is accepted by
the Decision Handler and flips the stored expense status from `approved` to
`rejected`: an approved status is not terminal, refuting the claim that once
the status is approved or rejected no decision changes it. -/
theorem c1_counterexample :
    decisionHandler
      [⟨"x", "c", "manager"⟩, ⟨"b", "c", "manager"⟩]
      [⟨.hybrid, ["x", "b"], [], 100, some "x"⟩]
      ⟨"e", "c", "s", .approved⟩
      [⟨"a1", "e", "x", 1, .approved⟩, ⟨"a2", "e", "b", 2, .pending⟩]
      "b" "c" "a2" .rejected
      = .ok (⟨"e", "c", "s", .rejected⟩,
          [⟨"a1", "e", "x", 1, .approved⟩, ⟨"a2", "e", "b", 2, .rejected⟩]) := by
  rfl

/-- C1 amended.  The Decision Handler performs no terminality check: on every
accepted decision it recomputes the Outcome Evaluator over the updated ledger
and persists that result as the expense status unconditionally, whatever the
previous status was. -/
theorem c1_amended (users : List User) (rules : List Rule) (expense : Expense)
    (approvals : List ApprovalRecord) (uid cid aid : String) (d : Status)
    (e' : Expense) (apps' : List ApprovalRecord)
    (h : decisionHandler users rules expense approvals uid cid aid d = .ok (e', apps')) :
    e'.status = evaluateRulesOutcome rules apps' := by
  unfold decisionHandler at h
  split at h
  · simp at h
  · split at h
    · simp at h
    · split at h
      · simp at h
      · simp only [Except.ok.injEq, Prod.mk.injEq] at h
        obtain ⟨h1, h2⟩ := h
        subst h1
        subst h2
        rfl

theorem c1_amended_witness :
    (⟨"e", "c", "s", .rejected⟩ : Expense).status =
      evaluateRulesOutcome [⟨.hybrid, ["x", "b"], [], 100, some "x"⟩]
        [⟨"a1", "e", "x", 1, .approved⟩, ⟨"a2", "e", "b", 2, .rejected⟩] :=
  c1_amended
    [⟨"x", "c", "manager"⟩, ⟨"b", "c", "manager"⟩]
    [⟨.hybrid, ["x", "b"], [], 100, some "x"⟩]
    ⟨"e", "c", "s", .approved⟩
    [⟨"a1", "e", "x", 1, .approved⟩, ⟨"a2", "e", "b", 2, .pending⟩]
    "b" "c" "a2" .rejected
    ⟨"e", "c", "s", .rejected⟩
    [⟨"a1", "e", "x", 1, .approved⟩, ⟨"a2", "e", "b", 2, .rejected⟩] (by rfl)

/-- C2 counterexample.  The record `a1` belongs to the requesting approver
`x` but is **not** pending (it is already approved).  The claim requires the
Decision Handler to fail with an explicit error and mutate nothing; instead
the handler accepts the decision (`.ok`, i.e. the transaction commits),
overwrites the record to `rejected`, and flips the expense status. -/
theorem c2_counterexample :
    decisionHandler
      [⟨"x", "c", "manager"⟩]
      [⟨.hybrid, ["x", "b"], [], 100, some "x"⟩]
      ⟨"e", "c", "s", .approved⟩
      [⟨"a1", "e", "x", 1, .approved⟩]
      "x" "c" "a1" .rejected
      = .ok (⟨"e", "c", "s", .rejected⟩, [⟨"a1", "e", "x", 1, .rejected⟩]) := by
  rfl

/-- C2 amended.  The Decision Handler validates only existence and ownership:
if no approval row matches `(id, approver_id)` it fails with `approvalNotFound`
(the 404 path, after which the transaction is rolled back and nothing is
mutated); if a matching row exists and references the expense, the decision is
accepted regardless of the record's current status — a non-pending record is
silently overwritten, with no ConflictError. -/
theorem c2_amended (users : List User) (rules : List Rule) (expense : Expense)
    (approvals : List ApprovalRecord) (uid cid aid : String) (d : Status)
    (hd : (statusApprovedB d || statusRejectedB d) = true) :
    (approvals.find? (fun a => a.id = aid && a.approver_id = uid) = none →
      decisionHandler users rules expense approvals uid cid aid d = .error .approvalNotFound)
    ∧ (∀ ap, approvals.find? (fun a => a.id = aid && a.approver_id = uid) = some ap →
        expense.id = ap.expense_id →
        exceptIsOk (decisionHandler users rules expense approvals uid cid aid d) = true) := by
  constructor
  · intro hfind
    unfold decisionHandler
    rw [hd]
    simp only [Bool.not_true, Bool.false_eq_true, if_false, hfind]
  · intro ap hfind hexp
    unfold decisionHandler
    rw [hd]
    simp only [Bool.not_true, Bool.false_eq_true, if_false, hfind, hexp]
    simp [exceptIsOk]

theorem c2_amended_witness :
    (([⟨"a1", "e", "x", 1, .approved⟩] :
        List ApprovalRecord).find? (fun a => a.id = "zz" && a.approver_id = "x") = none →
      decisionHandler [⟨"x", "c", "manager"⟩] [] ⟨"e", "c", "s", .approved⟩
        [⟨"a1", "e", "x", 1, .approved⟩] "x" "c" "zz" .approved
        = .error .approvalNotFound)
    ∧ (∀ ap, ([⟨"a1", "e", "x", 1, .approved⟩] :
          List ApprovalRecord).find? (fun a => a.id = "zz" && a.approver_id = "x") = some ap →
        ("e" : String) = ap.expense_id →
        exceptIsOk (decisionHandler [⟨"x", "c", "manager"⟩] [] ⟨"e", "c", "s", .approved⟩
          [⟨"a1", "e", "x", 1, .approved⟩] "x" "c" "zz" .approved) = true) :=
  c2_amended [⟨"x", "c", "manager"⟩] [] ⟨"e", "c", "s", .approved⟩
    [⟨"a1", "e", "x", 1, .approved⟩] "x" "c" "zz" .approved (by decide)

theorem isEmpty_eq_false_of_ne_nil {α : Type} {l : List α} (h : l ≠ []) :
    l.isEmpty = false := by
  cases l with
  | nil => exact absurd rfl h
  | cons a as => rfl

theorem dedupKeepFirst_ne_nil {l : List String} (h : l ≠ []) :
    dedupKeepFirst l ≠ [] := by
  cases l with
  | nil => exact absurd rfl h
  | cons a as => simp [dedupKeepFirst, dedupSeen]

/-- C6.  Rejection short-circuit: whenever the ledger is non-empty and holds
at least one rejected record, the Outcome Evaluator returns `rejected`
(whatever the rules and the other records), and the Stage Activator returns
the ledger unchanged, creating no records. -/
theorem c6_rejection_short_circuit (users : List User) (expense : Expense)
    (rules : List Rule) (approvals : List ApprovalRecord)
    (hne : approvals ≠ [])
    (hrej : approvals.any (fun r => statusRejectedB r.status) = true) :
    evaluateRulesOutcome rules approvals = .rejected
    ∧ maybeActivateNextApprovalStage users expense rules approvals = approvals := by
  have hie := isEmpty_eq_false_of_ne_nil hne
  constructor
  · unfold evaluateRulesOutcome
    rw [hie]
    by_cases hr : rules.isEmpty <;> simp [hr, hrej]
  · unfold maybeActivateNextApprovalStage
    rw [hie]
    simp [hrej]

theorem c6_rejection_short_circuit_witness :
    evaluateRulesOutcome [⟨.percentage, ["m1", "m2"], [], 50, none⟩]
      [⟨"a1", "e", "m1", 1, .approved⟩, ⟨"a2", "e", "m2", 1, .rejected⟩] = .rejected
    ∧ maybeActivateNextApprovalStage [⟨"m1", "c", "manager"⟩, ⟨"m2", "c", "manager"⟩]
        ⟨"e", "c", "s", .pending⟩ [⟨.percentage, ["m1", "m2"], [], 50, none⟩]
        [⟨"a1", "e", "m1", 1, .approved⟩, ⟨"a2", "e", "m2", 1, .rejected⟩]
      = [⟨"a1", "e", "m1", 1, .approved⟩, ⟨"a2", "e", "m2", 1, .rejected⟩] :=
  c6_rejection_short_circuit [⟨"m1", "c", "manager"⟩, ⟨"m2", "c", "manager"⟩]
    ⟨"e", "c", "s", .pending⟩ [⟨.percentage, ["m1", "m2"], [], 50, none⟩]
    [⟨"a1", "e", "m1", 1, .approved⟩, ⟨"a2", "e", "m2", 1, .rejected⟩]
    (by decide) (by decide)

/-- C9.  Fallback stage: when the merged workflow is empty (no rules, or all
rules degenerate) and at least one manager/admin other than the submitter
exists, expense submission opens stage 1 with pending records for exactly the
company's manager/admin users (minus the submitter, whom the resolver always
excludes; `fallbackManagerIds` is the `SELECT ... role IN ('manager','admin')`
row set with the submitter dropped). -/
theorem c9_fallback_stage (users : List User) (cid sub : String) (rules : List Rule)
    (hw : buildApprovalWorkflow rules = [])
    (hm : fallbackManagerIds users cid sub ≠ []) :
    expenseSubmissionActivation users cid sub rules
      = some (1, dedupKeepFirst (fallbackManagerIds users cid sub)) := by
  unfold expenseSubmissionActivation submitActivation
  rw [hw]
  simp only [findActiveStage]
  rw [isEmpty_eq_false_of_ne_nil hm, isEmpty_eq_false_of_ne_nil (dedupKeepFirst_ne_nil hm)]
  rfl

theorem c9_fallback_stage_witness :
    expenseSubmissionActivation
      [⟨"m", "c", "manager"⟩, ⟨"ad", "c", "admin"⟩, ⟨"s", "c", "admin"⟩,
       ⟨"emp", "c", "employee"⟩, ⟨"other", "c2", "manager"⟩]
      "c" "s" []
      = some (1, dedupKeepFirst (fallbackManagerIds
          [⟨"m", "c", "manager"⟩, ⟨"ad", "c", "admin"⟩, ⟨"s", "c", "admin"⟩,
           ⟨"emp", "c", "employee"⟩, ⟨"other", "c2", "manager"⟩] "c" "s")) :=
  c9_fallback_stage
    [⟨"m", "c", "manager"⟩, ⟨"ad", "c", "admin"⟩, ⟨"s", "c", "admin"⟩,
     ⟨"emp", "c", "employee"⟩, ⟨"other", "c2", "manager"⟩]
    "c" "s" [] (by decide) (by decide)

theorem stageLookup_append (m m' : StageMap) (o : Nat) :
    stageLookup (m ++ m') o =
      match stageLookup m o with
      | some x => some x
      | none => stageLookup m' o := by
  induction m with
  | nil => rfl
  | cons p rest ih =>
    simp only [List.cons_append, stageLookup]
    by_cases hp : p.1 = o <;> simp [hp, ih]

theorem stageLookup_mapStage (m : StageMap) (o : Nat) (g : List String → List String) :
    stageLookup (m.map fun p => if p.1 = o then (p.1, g p.2) else p) o
      = (stageLookup m o).map g := by
  induction m with
  | nil => rfl
  | cons p rest ih =>
    simp only [List.map_cons]
    by_cases hp : p.1 = o
    · simp [stageLookup, hp]
    · simp only [if_neg hp, stageLookup, hp, if_false, ih]

theorem mem_addToStage (m : StageMap) (o : Nat) (id : String)
    (hid : id ≠ "") (ho : 0 < o) :
    id ∈ (stageLookup (addToStage m o id) o).getD [] := by
  unfold addToStage
  rw [if_neg hid]
  simp only [if_pos ho]
  cases hl : stageLookup m o with
  | some ids =>
    dsimp only
    rw [stageLookup_mapStage m o (fun l => if id ∈ l then l else l ++ [id]), hl]
    by_cases hmem : id ∈ ids <;> simp [hmem]
  | none =>
    dsimp only
    rw [stageLookup_append, hl]
    simp [stageLookup]

/-- C8 counterexample.  Rule 1 contributes approvers `a1, a2, a3` at orders
1..3; rule 2 is a specific rule with an empty approver list, so its own
per-rule ordered list is empty and the claim places `x` as the final step of
**that rule's own sequence**, i.e. at order 0 + 1 = 1, merging `x` into stage
1 alongside `a1`.  The code instead takes the maximum over the *whole* stage
map accumulated from all rules so far (3) and places `x` at order 4: the
resulting workflow has stage 1 = `["a1"]` and `x` alone in a fourth stage. -/
theorem c8_counterexample :
    buildApprovalWorkflow
        [⟨.percentage, ["a1", "a2", "a3"], [], 100, none⟩,
         ⟨.specific, [], [], 0, some "x"⟩]
      = [⟨1, ["a1"]⟩, ⟨2, ["a2"]⟩, ⟨3, ["a3"]⟩, ⟨4, ["x"]⟩]
    ∧ ((buildApprovalWorkflow
        [⟨.percentage, ["a1", "a2", "a3"], [], 100, none⟩,
         ⟨.specific, [], [], 0, some "x"⟩]).filter
          (fun st => st.approverIds.contains "x")).map (fun st => st.order) = [4] := by
  constructor
  · decide
  · decide

/-- C8 amended.  When a rule names a `specific_approver_required` that occurs
neither in its raw `approver_sequence` nor in its raw `approvers` array, the
Workflow Builder appends that id at one past the maximum order of the whole
stage map accumulated so far — over *all* rules processed up to that point,
not the rule's own sequence (`maxExistingOrder = Math.max(...stageMap.keys())`
with 0 for an empty map). -/
theorem c8_amended (m : StageMap) (rule : Rule) (sid : String)
    (hs : rule.specific_approver_required = some sid)
    (hid : sid ≠ "")
    (hni : alreadyIncludedB rule sid = false) :
    sid ∈ (stageLookup (addRule m rule)
      (stageMapMaxKey (addRuleBase m rule) + 1)).getD [] := by
  unfold addRule
  rw [hs]
  simp only [hni, Bool.false_eq_true, if_false]
  exact mem_addToStage _ _ _ hid (Nat.succ_pos _)

theorem c8_amended_witness :
    "x" ∈ (stageLookup
      (addRule [(1, ["a1"]), (2, ["a2"]), (3, ["a3"])] ⟨.specific, [], [], 0, some "x"⟩)
      (stageMapMaxKey (addRuleBase [(1, ["a1"]), (2, ["a2"]), (3, ["a3"])]
        ⟨.specific, [], [], 0, some "x"⟩) + 1)).getD [] :=
  c8_amended [(1, ["a1"]), (2, ["a2"]), (3, ["a3"])] ⟨.specific, [], [], 0, some "x"⟩
    "x" (by decide) (by decide) (by decide)

theorem ne_nil_of_isEmpty_eq_false {α : Type} {l : List α} (h : l.isEmpty = false) :
    l ≠ [] := by
  cases l with
  | nil => simp [List.isEmpty] at h
  | cons a as => exact List.cons_ne_nil a as

theorem stageCreatedB_of_complete (approvals : List ApprovalRecord) (st : Stage)
    (h : stageCompleteB approvals st = true) :
    stageCreatedB approvals st.order = true := by
  unfold stageCompleteB at h
  rw [Bool.and_eq_true] at h
  have hne : approvalsAtStage approvals st.order ≠ [] := by
    have := h.1
    rw [Bool.not_eq_true'] at this
    exact ne_nil_of_isEmpty_eq_false this
  unfold approvalsAtStage at hne
  cases hf : (approvals.filter (fun a => decide (normStageOrder a.sequence_order = st.order))) with
  | nil => exact absurd hf hne
  | cons x xs =>
    have hx : x ∈ approvals.filter (fun a => decide (normStageOrder a.sequence_order = st.order)) := by
      rw [hf]; exact List.mem_cons_self x xs
    rw [List.mem_filter] at hx
    unfold stageCreatedB
    rw [List.any_eq_true]
    exact ⟨x, hx.1, hx.2⟩

theorem activateScan_some (users : List User) (expense : Expense)
    (approvals : List ApprovalRecord) (full : List Stage) :
    ∀ (rem : List Stage) (o : Nat) (ids : List String),
      activateScan users expense approvals full rem = some (o, ids) →
      ∃ st, st ∈ rem ∧ st.order = o ∧ ids = stageFiltered users expense approvals st ∧
        ids ≠ [] ∧ stageCreatedB approvals st.order = false ∧
        (full.filter (fun c => decide (c.order < st.order))).all
          (fun p => stageCompleteB approvals p) = true := by
  intro rem
  induction rem with
  | nil => intro o ids h; simp [activateScan] at h
  | cons st rest ih =>
    intro o ids h
    unfold activateScan at h
    split at h
    · split at h
      · exact absurd h (by simp)
      · obtain ⟨st', hmem, hrest⟩ := ih o ids h
        exact ⟨st', List.mem_cons_of_mem st hmem, hrest⟩
    · rename_i hc
      split at h
      · rename_i hprev
        split at h
        · obtain ⟨st', hmem, hrest⟩ := ih o ids h
          exact ⟨st', List.mem_cons_of_mem st hmem, hrest⟩
        · rename_i hfil
          simp only [Option.some.injEq, Prod.mk.injEq] at h
          obtain ⟨ho, hids⟩ := h
          refine ⟨st, List.mem_cons_self st rest, ho, hids.symm, ?_, ?_, hprev⟩
          · rw [← hids]
            exact ne_nil_of_isEmpty_eq_false (Bool.not_eq_true _ ▸ (by simpa using hfil))
          · simpa using hc
      · exact absurd h (by simp)

theorem maybeActivate_extra_spec (users : List User) (expense : Expense)
    (rules : List Rule) (approvals : List ApprovalRecord) (extra : List ApprovalRecord)
    (h : maybeActivateNextApprovalStage users expense rules approvals = approvals ++ extra)
    (hne : extra ≠ []) :
    ∃ st, st ∈ List.insertionSort (fun a b => a.order ≤ b.order) (buildApprovalWorkflow rules) ∧
      extra = mkStageRecords expense.id (stageFiltered users expense approvals st) st.order ∧
      stageCreatedB approvals st.order = false ∧
      stageFiltered users expense approvals st ≠ [] ∧
      ((List.insertionSort (fun a b => a.order ≤ b.order)
          (buildApprovalWorkflow rules)).filter
        (fun c => decide (c.order < st.order))).all
          (fun p => stageCompleteB approvals p) = true := by
  have hextra_of_self : approvals = approvals ++ extra → extra = [] := by
    intro hs
    have h2 : approvals ++ [] = approvals ++ extra := by simpa using hs
    exact (List.append_cancel_left h2).symm
  unfold maybeActivateNextApprovalStage at h
  split at h
  · exact absurd (hextra_of_self h) hne
  · split at h
    · exact absurd (hextra_of_self h) hne
    · split at h
      · exact absurd (hextra_of_self h) hne
      · split at h
        · rename_i p hscan
          obtain ⟨st, hmem, ho, hids, hids_ne, hcreated, hcomplete⟩ :=
            activateScan_some users expense approvals _ _ p.1 p.2 hscan
          have hx : extra = mkStageRecords expense.id p.2 p.1 :=
            (List.append_cancel_left h.symm)
          refine ⟨st, hmem, ?_, hcreated, ?_, hcomplete⟩
          · rw [hx, ← ho, ← hids]
          · rw [← hids]; exact hids_ne
        · exact absurd (hextra_of_self h) hne

/-- C7.  Stage gating: whenever a Stage Activator pass extends the ledger
with new records, every workflow stage strictly earlier than the opened
stage's order is complete on the pre-existing ledger — it has at least one
record and all of its records are approved.  In particular, for stages
`[{a}, {b}]` no record for `b` is ever created while `a`'s record is not
approved. -/
theorem c7_stage_gating (users : List User) (expense : Expense) (rules : List Rule)
    (approvals extra : List ApprovalRecord)
    (h : maybeActivateNextApprovalStage users expense rules approvals = approvals ++ extra) :
    extra.all (fun r => (buildApprovalWorkflow rules).all
      (fun t => !(decide (t.order < r.sequence_order)) || stageCompleteB approvals t)) = true := by
  by_cases hne : extra = []
  · subst hne; rfl
  · obtain ⟨st, hmem, hextra, hcreated, hfil_ne, hcomplete⟩ :=
      maybeActivate_extra_spec users expense rules approvals extra h hne
    rw [List.all_eq_true]
    intro r hr
    rw [hextra] at hr
    unfold mkStageRecords at hr
    rw [List.mem_map] at hr
    obtain ⟨a, _, hra⟩ := hr
    rw [List.all_eq_true]
    intro t ht
    have hseq : r.sequence_order = st.order := by rw [← hra]
    rw [hseq]
    by_cases hlt : t.order < st.order
    · have htf : t ∈ (List.insertionSort (fun a b => a.order ≤ b.order)
          (buildApprovalWorkflow rules)).filter (fun c => decide (c.order < st.order)) := by
        rw [List.mem_filter]
        exact ⟨(List.perm_insertionSort _ _).mem_iff.mpr ht, by simpa using hlt⟩
      have := (List.all_eq_true.mp hcomplete) t htf
      simp [this]
    · simp [hlt]

theorem c7_stage_gating_witness :
    ([⟨"", "e", "b", 2, .pending⟩] : List ApprovalRecord).all (fun r =>
      (buildApprovalWorkflow [⟨.percentage, ["a", "b"], [], 100, none⟩]).all
        (fun t => !(decide (t.order < r.sequence_order))
          || stageCompleteB [⟨"r1", "e", "a", 1, .approved⟩] t)) = true :=
  c7_stage_gating [⟨"a", "c", "manager"⟩, ⟨"b", "c", "manager"⟩] ⟨"e", "c", "s", .pending⟩
    [⟨.percentage, ["a", "b"], [], 100, none⟩]
    [⟨"r1", "e", "a", 1, .approved⟩] [⟨"", "e", "b", 2, .pending⟩] (by rfl)

/-- C4 counterexample.  The approver `a` already has a record in this
expense's ledger (at sequence order 2, e.g. left over from a workflow that
has since been reconfigured).  The workflow built from the current rules
asks for `a` at stage 1; the Stage Activator's exclusion filter only checks
for an existing record *at the same stage order* (`record.approver_id ===
approverId && record.sequence_order === stage.order`), so a second record
for `a` is created: the ledger ends up with two records for one approver,
refuting the claimed per-(expense, approver) uniqueness. -/
theorem c4_counterexample :
    maybeActivateNextApprovalStage [⟨"a", "c", "manager"⟩] ⟨"e", "c", "s", .pending⟩
        [⟨.percentage, ["a"], [], 100, none⟩]
        [⟨"r1", "e", "a", 2, .approved⟩]
      = [⟨"r1", "e", "a", 2, .approved⟩, ⟨"", "e", "a", 1, .pending⟩]
    ∧ (([⟨"r1", "e", "a", 2, .approved⟩, ⟨"", "e", "a", 1, .pending⟩] :
        List ApprovalRecord).filter (fun r => r.approver_id = "a")).length = 2 := by
  constructor
  · rfl
  · rfl

/-- C4 amended.  When the Stage Activator opens a stage, it excludes a
candidate only if that candidate already has a record **at the same sequence
order**: every created record has no pre-existing record with the same
approver id and the same stage order, but an approver whose records all sit
at other stage orders can be assigned again, so uniqueness holds only per
(expense, approver, stage), not per (expense, approver). -/
theorem c4_amended (users : List User) (expense : Expense) (rules : List Rule)
    (approvals extra : List ApprovalRecord)
    (h : maybeActivateNextApprovalStage users expense rules approvals = approvals ++ extra) :
    extra.all (fun r => !(approvals.any (fun p =>
      p.approver_id = r.approver_id && p.sequence_order = r.sequence_order))) = true := by
  by_cases hne : extra = []
  · subst hne; rfl
  · obtain ⟨st, _, hextra, _, _, _⟩ :=
      maybeActivate_extra_spec users expense rules approvals extra h hne
    rw [List.all_eq_true]
    intro r hr
    rw [hextra] at hr
    unfold mkStageRecords at hr
    rw [List.mem_map] at hr
    obtain ⟨a, ha, hra⟩ := hr
    unfold stageFiltered at ha
    rw [List.mem_filter] at ha
    have hflt := ha.2
    have happrover : r.approver_id = a := by rw [← hra]
    have hseq : r.sequence_order = st.order := by rw [← hra]
    rw [happrover, hseq]
    exact hflt

theorem c4_amended_witness :
    ([⟨"", "e", "a", 1, .pending⟩] : List ApprovalRecord).all (fun r =>
      !(([⟨"r1", "e", "a", 2, .approved⟩] : List ApprovalRecord).any (fun p =>
        p.approver_id = r.approver_id && p.sequence_order = r.sequence_order))) = true :=
  c4_amended [⟨"a", "c", "manager"⟩] ⟨"e", "c", "s", .pending⟩
    [⟨.percentage, ["a"], [], 100, none⟩]
    [⟨"r1", "e", "a", 2, .approved⟩] [⟨"", "e", "a", 1, .pending⟩] (by rfl)

theorem buildSteps_order_lb (m : StageMap) :
    ∀ (os : List Nat) (seen : List String) (k : Nat) (st : Stage),
      st ∈ buildSteps m seen k os → k ≤ st.order := by
  intro os
  induction os with
  | nil => intro seen k st h; simp [buildSteps] at h
  | cons o os ih =>
    intro seen k st h
    unfold buildSteps at h
    split at h
    · exact ih _ _ st h
    · rcases List.mem_cons.mp h with h1 | h2
      · rw [h1]
      · exact Nat.le_of_succ_le (ih _ _ st h2)

theorem buildSteps_order_pairwise (m : StageMap) :
    ∀ (os : List Nat) (seen : List String) (k : Nat),
      (buildSteps m seen k os).Pairwise (fun a b => a.order < b.order) := by
  intro os
  induction os with
  | nil => intro seen k; exact List.Pairwise.nil
  | cons o os ih =>
    intro seen k
    unfold buildSteps
    split
    · exact ih _ _
    · refine List.Pairwise.cons ?_ (ih _ _)
      intro b hb
      exact Nat.lt_of_succ_le (buildSteps_order_lb m os _ (k + 1) b hb)

theorem pairwise_order_inj (l : List Stage)
    (hp : l.Pairwise (fun a b => a.order < b.order)) :
    ∀ x ∈ l, ∀ y ∈ l, x.order = y.order → x = y := by
  induction hp with
  | nil => intro x hx; simp at hx
  | cons hhead _ ihtail =>
    intro x hx y hy hxy
    rcases List.mem_cons.mp hx with hx1 | hx2
    · rcases List.mem_cons.mp hy with hy1 | hy2
      · rw [hx1, hy1]
      · subst hx1
        exact absurd hxy (Nat.ne_of_lt (hhead y hy2))
    · rcases List.mem_cons.mp hy with hy1 | hy2
      · subst hy1
        exact absurd hxy.symm (Nat.ne_of_lt (hhead x hx2))
      · exact ihtail x hx2 y hy2 hxy

theorem workflow_order_inj (rules : List Rule) :
    ∀ x ∈ buildApprovalWorkflow rules, ∀ y ∈ buildApprovalWorkflow rules,
      x.order = y.order → x = y :=
  pairwise_order_inj _ (buildSteps_order_pairwise _ _ _ _)

theorem activateScan_none_of_blocked (users : List User) (expense : Expense)
    (approvals : List ApprovalRecord) (full : List Stage) (st : Stage)
    (hinj : ∀ x ∈ full, ∀ y ∈ full, x.order = y.order → x = y)
    (hst : st ∈ full)
    (hunc : stageCreatedB approvals st.order = false)
    (hprev : ∀ t ∈ full, t.order < st.order → stageCreatedB approvals t.order = true)
    (hfil : stageFiltered users expense approvals st = []) :
    activateScan users expense approvals full full = none := by
  cases hscan : activateScan users expense approvals full full with
  | none => rfl
  | some p =>
    exfalso
    obtain ⟨x, hxmem, hxo, hxids, hxne, hxunc, hxcomplete⟩ :=
      activateScan_some users expense approvals full full p.1 p.2 hscan
    rcases Nat.lt_trichotomy x.order st.order with hlt | heq | hgt
    · exact absurd (hprev x hxmem hlt) (by rw [hxunc]; exact Bool.false_ne_true)
    · have hx_eq : x = st := hinj x hxmem st hst heq
      rw [hx_eq] at hxids
      rw [hfil] at hxids
      exact hxne (by rw [hxids])
    · have hst_filter : st ∈ full.filter (fun c => decide (c.order < x.order)) := by
        rw [List.mem_filter]
        exact ⟨hst, by simpa using hgt⟩
      have hcomp := (List.all_eq_true.mp hxcomplete) st hst_filter
      have := stageCreatedB_of_complete approvals st hcomp
      rw [hunc] at this
      exact Bool.false_ne_true this

/-- C3 counterexample.  The rule yields the two-stage workflow
`[{order 1, [a]}, {order 2, [b]}]`; the user directory contains `b` but not
`a`, so stage 1 resolves to the empty approver set.  The claim (applied, as
its final clause demands, to the initial activation at expense submission)
requires that no records be created and no later stage opened; the
submission loop instead skips stage 1 and opens stage 2, creating a pending
record for `b`. -/
theorem c3_counterexample :
    expenseSubmissionActivation [⟨"b", "c", "manager"⟩] "c" "s"
        [⟨.percentage, ["a", "b"], [], 100, none⟩]
      = some (2, ["b"]) := by
  rfl

/-- C3 amended.  The two activation paths genuinely differ.  (1) In the
Stage Activator (`maybeActivateNextApprovalStage`), if the next unstarted
stage — one with no records while every earlier workflow stage already has
records — survives resolution with an empty candidate set, the pass creates
no records at all: the ledger is returned unchanged, and in particular no
later stage is opened.  (2) The initial activation at expense submission
does *not* stop: it skips any leading stage whose resolution is empty and
opens the first stage that resolves non-empty (and falls back to the
company's managers/admins when every stage resolves empty). -/
theorem c3_amended :
    (∀ (users : List User) (expense : Expense) (rules : List Rule)
        (approvals : List ApprovalRecord) (st : Stage),
      st ∈ buildApprovalWorkflow rules →
      stageCreatedB approvals st.order = false →
      (∀ t ∈ buildApprovalWorkflow rules, t.order < st.order →
        stageCreatedB approvals t.order = true) →
      stageFiltered users expense approvals st = [] →
      maybeActivateNextApprovalStage users expense rules approvals = approvals)
    ∧ (∀ (users : List User) (cid sub : String) (s1 s2 : Stage) (rest : List Stage),
      resolveApproverIds users cid s1.approverIds sub = [] →
      resolveApproverIds users cid s2.approverIds sub ≠ [] →
      submitActivation users cid sub (s1 :: s2 :: rest)
        = some (s2.order, dedupKeepFirst (resolveApproverIds users cid s2.approverIds sub))) := by
  constructor
  · intro users expense rules approvals st hmem hunc hprev hfil
    unfold maybeActivateNextApprovalStage
    split
    · rfl
    · split
      · rfl
      · split
        · rfl
        · have hperm := List.perm_insertionSort
            (fun a b : Stage => a.order ≤ b.order) (buildApprovalWorkflow rules)
          have hscan := activateScan_none_of_blocked users expense approvals
            (List.insertionSort (fun a b : Stage => a.order ≤ b.order)
              (buildApprovalWorkflow rules)) st
            (fun x hx y hy hxy =>
              workflow_order_inj rules x (hperm.mem_iff.mp hx) y (hperm.mem_iff.mp hy) hxy)
            (hperm.mem_iff.mpr hmem) hunc
            (fun t ht hlt => hprev t (hperm.mem_iff.mp ht) hlt) hfil
          rw [hscan]
  · intro users cid sub s1 s2 rest h1 h2
    unfold submitActivation
    simp only [findActiveStage]
    rw [h1]
    simp only [List.isEmpty_nil, if_true]
    rw [isEmpty_eq_false_of_ne_nil h2]
    simp only [Bool.false_eq_true, if_false]
    rw [isEmpty_eq_false_of_ne_nil (dedupKeepFirst_ne_nil h2)]
    rfl

theorem c3_amended_witness :
    maybeActivateNextApprovalStage [] ⟨"e", "c", "s", .pending⟩
        [⟨.percentage, ["a", "b"], [], 100, none⟩]
        [⟨"r1", "e", "a", 1, .approved⟩]
      = [⟨"r1", "e", "a", 1, .approved⟩]
    ∧ submitActivation [⟨"b", "c", "manager"⟩] "c" "s"
        [⟨1, ["a"]⟩, ⟨2, ["b"]⟩]
      = some (2, dedupKeepFirst (resolveApproverIds [⟨"b", "c", "manager"⟩] "c" ["b"] "s")) :=
  ⟨c3_amended.1 [] ⟨"e", "c", "s", .pending⟩
      [⟨.percentage, ["a", "b"], [], 100, none⟩]
      [⟨"r1", "e", "a", 1, .approved⟩] ⟨2, ["b"]⟩
      (by decide) (by decide) (by decide) (by rfl),
   c3_amended.2 [⟨"b", "c", "manager"⟩] "c" "s" ⟨1, ["a"]⟩ ⟨2, ["b"]⟩ []
      (by rfl) (by decide)⟩

theorem escToPending_approver_id (r : ApprovalRecord) :
    (escToPending r).approver_id = r.approver_id := by
  unfold escToPending
  split <;> rfl

theorem statusApprovedB_escToPending (r : ApprovalRecord) :
    statusApprovedB (escToPending r).status = statusApprovedB r.status := by
  unfold escToPending
  split
  · rename_i hs
    rw [hs]
    rfl
  · rfl

theorem statusRejectedB_escToPending (r : ApprovalRecord) :
    statusRejectedB (escToPending r).status = statusRejectedB r.status := by
  unfold escToPending
  split
  · rename_i hs
    rw [hs]
    rfl
  · rfl

theorem mapGet_map_escToPending (records : List ApprovalRecord) (sid : String) :
    mapGet (records.map escToPending) sid = (mapGet records sid).map escToPending := by
  induction records with
  | nil => rfl
  | cons r rest ih =>
    simp only [List.map_cons, mapGet, ih, escToPending_approver_id]
    cases mapGet rest sid with
    | some x => rfl
    | none =>
      by_cases h : r.approver_id = sid
      · simp [h]
      · simp [h]

theorem evaluatePercentage_escToPending (records : List ApprovalRecord) (rule : Rule) :
    evaluatePercentage (records.map escToPending) rule = evaluatePercentage records rule := by
  have hids : (records.map escToPending).map (fun r => r.approver_id)
      = records.map (fun r => r.approver_id) := by
    rw [List.map_map]
    congr 1
    funext r
    exact escToPending_approver_id r
  have hrej : (fun i => match mapGet (records.map escToPending) i with
      | some r => statusRejectedB r.status
      | none => false)
      = (fun i => match mapGet records i with
      | some r => statusRejectedB r.status
      | none => false) := by
    funext i
    rw [mapGet_map_escToPending]
    cases mapGet records i with
    | some x => exact statusRejectedB_escToPending x
    | none => rfl
  have happ : (fun i => match mapGet (records.map escToPending) i with
      | some r => statusApprovedB r.status
      | none => false)
      = (fun i => match mapGet records i with
      | some r => statusApprovedB r.status
      | none => false) := by
    funext i
    rw [mapGet_map_escToPending]
    cases mapGet records i with
    | some x => exact statusApprovedB_escToPending x
    | none => rfl
  simp only [evaluatePercentage]
  rw [hids, hrej, happ]

theorem specificVerdict_escToPending (records : List ApprovalRecord) (rule : Rule) :
    specificVerdict (records.map escToPending) rule = specificVerdict records rule := by
  unfold specificVerdict
  cases rule.rule_type <;>
    first
      | rfl
      | (cases hs : rule.specific_approver_required with
         | none => rfl
         | some sid =>
           dsimp only
           rw [mapGet_map_escToPending]
           cases mapGet records sid with
           | none => rfl
           | some x =>
             dsimp only [Option.map]
             rw [statusApprovedB_escToPending, statusRejectedB_escToPending])

theorem ruleVerdict_escToPending (records : List ApprovalRecord) (rule : Rule) :
    ruleVerdict (records.map escToPending) rule = ruleVerdict records rule := by
  unfold ruleVerdict
  rw [specificVerdict_escToPending, evaluatePercentage_escToPending]

theorem evalRulesLoop_escToPending (records : List ApprovalRecord) (rules : List Rule) :
    evalRulesLoop (records.map escToPending) rules = evalRulesLoop records rules := by
  induction rules with
  | nil => rfl
  | cons ru rest ih =>
    unfold evalRulesLoop
    rw [ruleVerdict_escToPending, ih]

/-- C10.  Escalated records are neutral in evaluation: replacing every
escalated record by a pending one leaves the Outcome Evaluator's result
unchanged, on every rule list and record list.  The evaluator only ever
discriminates on `status === 'approved'` and `status === 'rejected'`, so an
escalated record never triggers the rejection short-circuit, never counts
toward a percentage quorum, and — not being approved — prevents the
all-records-approved fallthrough exactly as a pending record does. -/
theorem c10_escalated_neutral (rules : List Rule) (records : List ApprovalRecord) :
    evaluateRulesOutcome rules (records.map escToPending)
      = evaluateRulesOutcome rules records := by
  have hrej : (records.map escToPending).any (fun r => statusRejectedB r.status)
      = records.any (fun r => statusRejectedB r.status) := by
    rw [List.any_map]
    congr 1
    funext r
    exact statusRejectedB_escToPending r
  have happ : (records.map escToPending).all (fun r => statusApprovedB r.status)
      = records.all (fun r => statusApprovedB r.status) := by
    rw [List.all_map]
    congr 1
    funext r
    exact statusApprovedB_escToPending r
  have hie : (records.map escToPending).isEmpty = records.isEmpty := by
    cases records <;> rfl
  unfold evaluateRulesOutcome
  rw [hie, hrej, happ, evalRulesLoop_escToPending]

theorem mem_dedupSeen (l : List String) :
    ∀ (seen : List String) (x : String), x ∈ dedupSeen seen l ↔ x ∈ l ∧ x ∉ seen := by
  induction l with
  | nil => intro seen x; simp [dedupSeen]
  | cons a as ih =>
    intro seen x
    unfold dedupSeen
    by_cases ha : a ∈ seen
    · rw [if_pos ha, ih]
      constructor
      · intro ⟨h1, h2⟩; exact ⟨List.mem_cons_of_mem a h1, h2⟩
      · intro ⟨h1, h2⟩
        rcases List.mem_cons.mp h1 with hx | hx
        · exact absurd (hx ▸ ha) h2
        · exact ⟨hx, h2⟩
    · rw [if_neg ha]
      constructor
      · intro h
        rcases List.mem_cons.mp h with hx | hx
        · exact ⟨hx ▸ List.mem_cons_self a as, hx ▸ ha⟩
        · obtain ⟨h1, h2⟩ := (ih _ x).mp hx
          exact ⟨List.mem_cons_of_mem a h1,
            fun hs => h2 (List.mem_cons_of_mem a hs)⟩
      · intro ⟨h1, h2⟩
        rcases List.mem_cons.mp h1 with hx | hx
        · exact hx ▸ List.mem_cons_self a _
        · by_cases hxa : x = a
          · exact hxa ▸ List.mem_cons_self a _
          · exact List.mem_cons_of_mem a ((ih _ x).mpr
              ⟨hx, fun hs => h2 (by
                rcases List.mem_cons.mp hs with h | h
                · exact absurd h hxa
                · exact h)⟩)

theorem nodup_dedupSeen (l : List String) :
    ∀ seen : List String, (dedupSeen seen l).Nodup := by
  induction l with
  | nil => intro seen; exact List.nodup_nil
  | cons a as ih =>
    intro seen
    unfold dedupSeen
    by_cases ha : a ∈ seen
    · rw [if_pos ha]; exact ih seen
    · rw [if_neg ha]
      refine List.Nodup.cons ?_ (ih (a :: seen))
      intro hmem
      exact ((mem_dedupSeen as (a :: seen) a).mp hmem).2 (List.mem_cons_self a seen)

theorem dedupSeen_eq_self (l : List String) :
    ∀ seen : List String, l.Nodup → (∀ x ∈ l, x ∉ seen) → dedupSeen seen l = l := by
  induction l with
  | nil => intro seen _ _; rfl
  | cons a as ih =>
    intro seen hnd hdisj
    unfold dedupSeen
    rw [if_neg (hdisj a (List.mem_cons_self a as))]
    congr 1
    refine ih (a :: seen) (List.Nodup.of_cons hnd) ?_
    intro x hx hmem
    rcases List.mem_cons.mp hmem with h | h
    · exact (List.nodup_cons.mp hnd).1 (h ▸ hx)
    · exact hdisj x (List.mem_cons_of_mem a hx) h

theorem dedupKeepFirst_idem (l : List String) :
    dedupKeepFirst (dedupKeepFirst l) = dedupKeepFirst l :=
  dedupSeen_eq_self _ _ (nodup_dedupSeen l []) (fun _ _ h => (List.mem_nil_iff _).mp h)

theorem mapGet_eq_some_spec (sid : String) :
    ∀ (records : List ApprovalRecord) (r : ApprovalRecord),
      mapGet records sid = some r → r ∈ records ∧ r.approver_id = sid := by
  intro records
  induction records with
  | nil => intro r h; simp [mapGet] at h
  | cons q rest ih =>
    intro r h
    unfold mapGet at h
    cases hm : mapGet rest sid with
    | some x =>
      rw [hm] at h
      dsimp only at h
      obtain ⟨h1, h2⟩ := ih r (hm.trans h)
      exact ⟨List.mem_cons_of_mem q h1, h2⟩
    | none =>
      rw [hm] at h
      dsimp only at h
      split at h
      · rename_i hq
        have hqr : q = r := Option.some.inj h
        constructor
        · rw [← hqr]; exact List.mem_cons_self q rest
        · rw [← hqr]; exact hq
      · cases h

theorem mapGet_eq_none_spec (sid : String) :
    ∀ records : List ApprovalRecord, mapGet records sid = none →
      ∀ r ∈ records, r.approver_id ≠ sid := by
  intro records
  induction records with
  | nil => intro _ r hr; simp at hr
  | cons q rest ih =>
    intro h
    unfold mapGet at h
    cases hm : mapGet rest sid with
    | some x => rw [hm] at h; cases h
    | none =>
      rw [hm] at h
      dsimp only at h
      split at h
      · cases h
      · rename_i hq
        intro r hr
        rcases List.mem_cons.mp hr with h1 | h1
        · rw [h1]; exact hq
        · exact ih hm r h1

theorem mapGet_approved_eq_hasApproved (records : List ApprovalRecord) (sid : String)
    (hnd : (records.map (fun r => r.approver_id)).Nodup) :
    (match mapGet records sid with
     | some r => statusApprovedB r.status
     | none => false) = hasApprovedRecordB records sid := by
  cases hm : mapGet records sid with
  | none =>
    have hno := mapGet_eq_none_spec sid records hm
    unfold hasApprovedRecordB
    rw [eq_comm, List.any_eq_false]
    intro r hr
    simp only [Bool.and_eq_true, decide_eq_true_eq, not_and]
    intro hsid
    exact absurd hsid (hno r hr)
  | some r =>
    obtain ⟨hrmem, hrsid⟩ := mapGet_eq_some_spec sid records r hm
    dsimp only
    unfold hasApprovedRecordB
    by_cases ha : statusApprovedB r.status
    · rw [ha, eq_comm, List.any_eq_true]
      exact ⟨r, hrmem, by rw [Bool.and_eq_true, decide_eq_true_eq]; exact ⟨hrsid, ha⟩⟩
    · rw [Bool.not_eq_true] at ha
      rw [ha, eq_comm, List.any_eq_false]
      intro q hq
      simp only [Bool.and_eq_true, decide_eq_true_eq, not_and]
      intro hqs
      have hqr : q = r :=
        List.inj_on_of_nodup_map hnd hq hrmem (by rw [hqs, hrsid])
      rw [hqr, ha]
      simp

theorem mapGet_not_rejected (records : List ApprovalRecord) (sid : String)
    (hnr : ∀ r ∈ records, statusRejectedB r.status = false) :
    (match mapGet records sid with
     | some r => statusRejectedB r.status
     | none => false) = false := by
  cases hm : mapGet records sid with
  | none => rfl
  | some r =>
    obtain ⟨hrmem, _⟩ := mapGet_eq_some_spec sid records r hm
    exact hnr r hrmem

theorem evaluatePercentage_spec (records : List ApprovalRecord) (rule : Rule)
    (hnd : (records.map (fun r => r.approver_id)).Nodup)
    (hnr : ∀ r ∈ records, statusRejectedB r.status = false) :
    evaluatePercentage records rule = ⟨specPctOkB rule records, false⟩ := by
  have hcand : dedupKeepFirst (if rule.approvers.isEmpty then
      dedupKeepFirst (records.map fun r => r.approver_id) else rule.approvers)
      = specCandidates rule records := by
    unfold specCandidates
    by_cases h : rule.approvers.isEmpty
    · rw [if_pos h, if_pos h, dedupKeepFirst_idem]
    · rw [if_neg h, if_neg h]
  have hrejf : ∀ ids : List String, (ids.any (fun i =>
      match mapGet records i with
      | some r => statusRejectedB r.status
      | none => false)) = false := by
    intro ids
    rw [List.any_eq_false]
    intro i _
    rw [mapGet_not_rejected records i hnr]
    simp
  have hpred : (fun i => match mapGet records i with
      | some r => statusApprovedB r.status
      | none => false) = (fun sid => hasApprovedRecordB records sid) := by
    funext sid
    exact mapGet_approved_eq_hasApproved records sid hnd
  simp only [evaluatePercentage]
  rw [hcand, hrejf, hpred]
  by_cases hemp : (specCandidates rule records).isEmpty
  · rw [if_pos hemp]
    have hc : specCandidates rule records = [] := by
      cases hcc : specCandidates rule records with
      | nil => rfl
      | cons a as => rw [hcc] at hemp; simp [List.isEmpty] at hemp
    unfold specPctOkB
    rw [hc]
    simp
  · rw [if_neg hemp]
    simp only [Bool.false_eq_true, if_false]
    unfold specPctOkB
    rfl

theorem ruleVerdict_spec (records : List ApprovalRecord) (rule : Rule)
    (hnd : (records.map (fun r => r.approver_id)).Nodup)
    (hnr : ∀ r ∈ records, statusRejectedB r.status = false) :
    ruleVerdict records rule =
      if specRuleApprovesB rule records then some .approved else none := by
  unfold ruleVerdict specificVerdict specRuleApprovesB
  rw [evaluatePercentage_spec records rule hnd hnr]
  cases rule.rule_type with
  | percentage =>
    dsimp only
    by_cases hp : specPctOkB rule records <;> simp [hp]
  | specific =>
    dsimp only
    cases hs : rule.specific_approver_required with
    | none => rfl
    | some sid =>
      dsimp only
      have hget := mapGet_approved_eq_hasApproved records sid hnd
      cases hm : mapGet records sid with
      | none =>
        rw [hm] at hget
        dsimp only at hget
        rw [← hget]
        rfl
      | some r =>
        rw [hm] at hget
        dsimp only at hget
        rw [← hget]
        obtain ⟨hrmem, _⟩ := mapGet_eq_some_spec sid records r hm
        have hrj : statusRejectedB r.status = false := hnr r hrmem
        by_cases ha : statusApprovedB r.status
        · simp [ha]
        · rw [Bool.not_eq_true] at ha
          simp [ha, hrj]
  | hybrid =>
    dsimp only
    cases hs : rule.specific_approver_required with
    | none =>
      dsimp only
      by_cases hp : specPctOkB rule records <;> simp [hp]
    | some sid =>
      dsimp only
      have hget := mapGet_approved_eq_hasApproved records sid hnd
      cases hm : mapGet records sid with
      | none =>
        rw [hm] at hget
        dsimp only at hget
        rw [← hget]
        dsimp only
        by_cases hp : specPctOkB rule records <;> simp [hp]
      | some r =>
        rw [hm] at hget
        dsimp only at hget
        rw [← hget]
        obtain ⟨hrmem, _⟩ := mapGet_eq_some_spec sid records r hm
        have hrj : statusRejectedB r.status = false := hnr r hrmem
        by_cases ha : statusApprovedB r.status
        · simp [ha]
        · rw [Bool.not_eq_true] at ha
          simp only [ha, hrj, Bool.false_eq_true, if_false, Bool.false_or]

theorem evalRulesLoop_spec (records : List ApprovalRecord) (rules : List Rule)
    (hnd : (records.map (fun r => r.approver_id)).Nodup)
    (hnr : ∀ r ∈ records, statusRejectedB r.status = false) :
    evalRulesLoop records rules =
      if rules.any (fun ru => specRuleApprovesB ru records) then some .approved else none := by
  induction rules with
  | nil => rfl
  | cons ru rest ih =>
    unfold evalRulesLoop
    rw [ruleVerdict_spec records ru hnd hnr, ih]
    by_cases hr : specRuleApprovesB ru records
    · simp [hr]
    · rw [Bool.not_eq_true] at hr
      simp [hr]

/-- C5 counterexample.  A percentage rule with `min_approval_percentage = 28`
over 25 candidates, of whom 7 have approved and one is pending.  The claim's
stated quorum is the exact `required = ⌈28/100 · 25⌉ = ⌈7⌉ = 7`, so with 7
approvals the rule fires and the claim predicts `approved`
(`specRuleApprovesExactB` is its condition, and it holds).  The program
computes `Math.ceil((28/100)*25)` in binary64: `fl(0.28)` rounds up, the
product rounds to `7 + 2⁻⁵⁰`, and the ceiling is 8 — so no rule fires, the
all-approved fallthrough fails against the pending record, and the
evaluator returns `pending`, not `approved`. -/
theorem c5_counterexample :
    specRuleApprovesExactB
        ⟨.percentage, ["p01", "p02", "p03", "p04", "p05", "p06", "p07", "p08", "p09", "p10",
          "p11", "p12", "p13", "p14", "p15", "p16", "p17", "p18", "p19", "p20",
          "p21", "p22", "p23", "p24", "p25"], [], 28, none⟩
        [⟨"a1", "e", "p01", 1, .approved⟩, ⟨"a2", "e", "p02", 1, .approved⟩,
         ⟨"a3", "e", "p03", 1, .approved⟩, ⟨"a4", "e", "p04", 1, .approved⟩,
         ⟨"a5", "e", "p05", 1, .approved⟩, ⟨"a6", "e", "p06", 1, .approved⟩,
         ⟨"a7", "e", "p07", 1, .approved⟩, ⟨"a8", "e", "p08", 1, .pending⟩] = true
    ∧ (28 * 25 + 99) / 100 = 7
    ∧ jsCeilQuorum 28 25 = 8
    ∧ evaluateRulesOutcome
        [⟨.percentage, ["p01", "p02", "p03", "p04", "p05", "p06", "p07", "p08", "p09", "p10",
          "p11", "p12", "p13", "p14", "p15", "p16", "p17", "p18", "p19", "p20",
          "p21", "p22", "p23", "p24", "p25"], [], 28, none⟩]
        [⟨"a1", "e", "p01", 1, .approved⟩, ⟨"a2", "e", "p02", 1, .approved⟩,
         ⟨"a3", "e", "p03", 1, .approved⟩, ⟨"a4", "e", "p04", 1, .approved⟩,
         ⟨"a5", "e", "p05", 1, .approved⟩, ⟨"a6", "e", "p06", 1, .approved⟩,
         ⟨"a7", "e", "p07", 1, .approved⟩, ⟨"a8", "e", "p08", 1, .pending⟩] = .pending := by
  refine ⟨by decide, by decide, by decide, by decide⟩

/-- C5 amended.  Outcome Evaluator rule dispatch, stated over ledgers that
satisfy the data-model invariant of one record per approver (`Nodup` of
approver ids) and contain no rejected record (the regime the claim
addresses; with a rejected record the global short-circuit of C6 fires
first).  The evaluator returns `approved` exactly when some rule fires —
rules are scanned in list order and, with no rejection present, the only
verdict a rule can produce is `approved`, so the first winning verdict
coincides with the existence of a firing rule — where a rule fires per
`specRuleApprovesB`: a specific/hybrid rule fires when its
`specific_approver_required` has an approved record, and a percentage/hybrid
rule fires when, over candidates = `rule.approvers` if non-empty else the
distinct approver ids of the records, with `required =
Math.ceil((min_approval_percentage/100) · |candidates|)` **computed in
IEEE-754 binary64 arithmetic** (`jsCeilQuorum`, which can exceed the exact
ceiling by one, e.g. at (28, 25)), either `required = 0` with at least one
approval or the approved count reaches `required`; otherwise the
all-approved fallthrough applies. -/
theorem c5_rule_dispatch (rules : List Rule) (records : List ApprovalRecord)
    (hnd : (records.map (fun r => r.approver_id)).Nodup)
    (hnr : ∀ r ∈ records, statusRejectedB r.status = false)
    (hne : records ≠ []) :
    evaluateRulesOutcome rules records =
      if rules.any (fun ru => specRuleApprovesB ru records) then .approved
      else if records.all (fun r => statusApprovedB r.status) then .approved
      else .pending := by
  have hie := isEmpty_eq_false_of_ne_nil hne
  have hanyrej : records.any (fun r => statusRejectedB r.status) = false :=
    List.any_eq_false.mpr (fun r hr => by simp [hnr r hr])
  unfold evaluateRulesOutcome
  rw [hie, hanyrej]
  cases rules with
  | nil => simp
  | cons ru rest =>
    rw [evalRulesLoop_spec records (ru :: rest) hnd hnr]
    simp only [List.isEmpty_cons, Bool.false_eq_true, if_false]
    by_cases ha : (ru :: rest).any (fun r => specRuleApprovesB r records) <;> simp [ha]

theorem c5_rule_dispatch_witness :
    evaluateRulesOutcome [⟨.percentage, ["m1", "m2", "m3"], [], 34, none⟩]
      [⟨"a1", "e", "m1", 1, .approved⟩, ⟨"a2", "e", "m2", 1, .approved⟩,
       ⟨"a3", "e", "m3", 1, .pending⟩] = .approved := by
  have h := c5_rule_dispatch [⟨.percentage, ["m1", "m2", "m3"], [], 34, none⟩]
    [⟨"a1", "e", "m1", 1, .approved⟩, ⟨"a2", "e", "m2", 1, .approved⟩,
     ⟨"a3", "e", "m3", 1, .pending⟩]
    (by decide) (by decide) (by decide)
  rw [h]
  decide
